import Mathlib

/-!
base64-2045: a shallow embedding of `base64.c`.

The C file defines a table `b64set`, four constants, the encoder `encb64`
and the size calculator `encb64len`.  Both functions are embedded below,
statement by statement.

Conventions of the embedding:

* `size_t` values (`len`, `alignlen`, `i`, `j`, `k`, `count`) are natural
  numbers.  `encb64len_no_overflow` shows that for `count ≤ 2 ^ 63` no
  intermediate value of `encb64len` reaches `2 ^ 64`, so the unbounded
  reading agrees with a 64-bit `size_t` there.
* `unsigned char` is `Fin 256` (`base64.h` refuses `CHAR_BIT != 8`).
* `uint32_t group` is a natural number, reduced modulo `2 ^ 32` where it is
  or-ed with a shifted byte; `int linelen` and `int leftover` are natural
  numbers, they stay between 0 and 76.
* `src` is the list of bytes that are readable behind the pointer; a read
  `src[i]` with `i` past the end of that list is a fault.
* `dst` is the log of the stores `dst[j] = c`, in program order, each with
  the index it went to.
-/

namespace Base64

/-! ## Constants and the alphabet -/

/-- Maximum base64 line length. -/
def MAXLINE : Nat := 76
/-- Group of bytes to convert to base64. -/
def GROUPLEN : Nat := 3
/-- Base64 is composed of 4 byte words. -/
def WORDLEN : Nat := 4
/-- How many bits are in a base64 character. -/
def B64_BIT : Nat := 6
/-- Bits in a byte, from `limits.h`; `base64.h` requires 8. -/
def CHAR_BIT : Nat := 8

/-- An `unsigned char`. -/
abbrev Byte := Fin 256

/-- The table `b64set[64]`. -/
def b64set : List Char :=
  "ABCDEFGHIJKLMNOPQRSTUVWXYZabcdefghijklmnopqrstuvwxyz0123456789+/".toList

/-- The expression `b64set[group & 0x3f]`.  The index is below 64, the size
of the table, so the fallback of `getD` is never taken
(`b64set_index_in_range`). -/
def b64char (group : Nat) : Char :=
  b64set.getD (group &&& 0x3f) 'A'

/-! ## Machine state of `encb64` -/

deriving instance DecidableEq for Except

/-- What can go wrong while running the embedding. -/
inductive Fault where
  /-- The read `src[i]` fell outside the readable bytes of `src`. -/
  | srcRead (i : Nat)
  /-- A loop was cut off by its iteration budget (never happens, see
  `encb64_fuel_free`). -/
  | fuel
  deriving DecidableEq, Repr

/-- The local variables of `encb64` and the log of stores to `dst`. -/
structure St where
  linelen : Nat
  group : Nat
  i : Nat
  j : Nat
  k : Nat
  /-- Every store `dst[j] = c` so far, oldest first, as `(j, c)`. -/
  dst : List (Nat × Char)
  deriving DecidableEq, Repr

/-- The statement `dst[j++] = c;`. -/
def putInc (c : Char) (s : St) : St :=
  { s with dst := s.dst ++ [(s.j, c)], j := s.j + 1 }

/-- The statement `dst[j] = c;`. -/
def put (c : Char) (s : St) : St :=
  { s with dst := s.dst ++ [(s.j, c)] }

/-- The statement `group |= src[i++] << k * CHAR_BIT;`. -/
def grab (src : List Byte) (s : St) : Except Fault St :=
  match src[s.i]? with
  | none => .error (.srcRead s.i)
  | some b =>
    .ok { s with group := (s.group ||| (b.val <<< (s.k * CHAR_BIT))) % 2 ^ 32,
                 i := s.i + 1 }

/-- The statements `dst[j++] = b64set[group & 0x3f]; group >>= B64_BIT;`. -/
def emit (s : St) : St :=
  let s := putInc (b64char s.group) s
  { s with group := s.group >>> B64_BIT }

/-- The statement `k++`. -/
def incK (s : St) : St := { s with k := s.k + 1 }

/-- A C loop `while (cond) body` with an iteration budget. -/
def whileLoop (cond : St → Bool) (body : St → Except Fault St) :
    Nat → St → Except Fault St
  | 0, s => if cond s then .error .fuel else .ok s
  | n + 1, s => if cond s then body s >>= whileLoop cond body n else .ok s

/-! ## `encb64` -/

/-- Lines 58-59 and 73-74: `for (k = 0; k < bound; k++) group |= src[i++] << k * CHAR_BIT;`. -/
def grabLoop (src : List Byte) (bound : Nat) (s : St) : Except Fault St :=
  whileLoop (fun s => s.k < bound) (fun s => (grab src s).map incK) bound
    { s with k := 0 }

/-- Lines 60-63: `for (k = 0; k < WORDLEN; k++) { dst[j++] = ...; group >>= B64_BIT; }`. -/
def wordLoop (s : St) : Except Fault St :=
  whileLoop (fun s => s.k < WORDLEN) (fun s => .ok (incK (emit s))) WORDLEN
    { s with k := 0 }

/-- Lines 64-69: `linelen += WORDLEN; if (linelen == MAXLINE) { ... }`. -/
def wrapLine (s : St) : St :=
  let s := { s with linelen := s.linelen + WORDLEN }
  if s.linelen = MAXLINE then
    putInc '\n' (putInc '\r' { s with linelen := 0 })
  else s

/-- Lines 58-69: the body of the loop over the aligned groups. -/
def groupBody (src : List Byte) (s : St) : Except Fault St := do
  let s ← grabLoop src GROUPLEN s
  let s ← wordLoop s
  pure (wrapLine s)

/-- Lines 76-79: `for (k = 0; group; k++) { dst[j++] = ...; group >>= B64_BIT; }`. -/
def convLoop (s : St) : Except Fault St :=
  whileLoop (fun s => s.group ≠ 0) (fun s => .ok (incK (emit s))) s.group
    { s with k := 0 }

/-- Lines 81-86: `if (k) { do { dst[j++] = '='; k++; } while (k < WORDLEN); }`. -/
def padLoop (s : St) : Except Fault St :=
  if s.k ≠ 0 then
    whileLoop (fun s => s.k < WORDLEN) (fun s => .ok (incK (putInc '=' s))) WORDLEN
      (incK (putInc '=' s))
  else .ok s

/-- Lines 88-91: `if (linelen) { dst[j++] = '\r'; dst[j] = '\n'; }`. -/
def terminate (s : St) : St :=
  if s.linelen ≠ 0 then put '\n' (putInc '\r' s) else s

/-- The function `encb64(dst, src, len)`, run to its final state.  `src`
holds the bytes readable behind the pointer `_src`. -/
def encb64 (src : List Byte) (len : Nat) : Except Fault St := do
  -- linelen = group = 0;
  let leftover := len % WORDLEN
  let alignlen := len - leftover
  -- for (i = j = 0; i < alignlen;)
  let s ← whileLoop (fun s => s.i < alignlen) (groupBody src) alignlen
    { linelen := 0, group := 0, i := 0, j := 0, k := 0, dst := [] }
  let s ← grabLoop src leftover s
  let s ← convLoop s
  let s ← padLoop s
  pure (terminate s)

/-- The characters stored to `dst`, in the order of the stores. -/
def written (r : Except Fault St) : Option (List Char) :=
  match r with
  | .ok s => some (s.dst.map Prod.snd)
  | .error _ => none

/-- The indices of `dst` stored to, in the order of the stores. -/
def storeIndices (r : Except Fault St) : Option (List Nat) :=
  match r with
  | .ok s => some (s.dst.map Prod.fst)
  | .error _ => none

/-! ## `encb64len` -/

/-- The function `encb64len(count)`. -/
def encb64len (count : Nat) : Nat :=
  let b64len := count / GROUPLEN * WORDLEN
  -- Equal sign padding and/or incomplete word.
  let b64len := if count % GROUPLEN ≠ 0 then b64len + WORDLEN else b64len
  -- \r\n sequences.
  let b64len := b64len + (b64len / MAXLINE) * 2
  -- Terminating \r\n.
  let b64len := b64len + (if b64len % MAXLINE ≠ 0 then 1 else 0) * 2
  b64len

/-! ## Reference notions the claims are stated with -/

/-- The size formula in the words of the specification: the base length is
four characters per started group of three bytes, two characters are added
per complete 76-character line of the base length, and two more when the
base length is not a multiple of 76. -/
def encb64lenSpec (count : Nat) : Nat :=
  let base := 4 * (count / 3) + (if count % 3 ≠ 0 then 4 else 0)
  base + 2 * (base / 76) + (if base % 76 ≠ 0 then 2 else 0)

/-- A character is a line break character, CR or LF. -/
def isBreak (c : Char) : Bool := c == '\r' || c == '\n'

/-- The text with every CR and LF removed. -/
def stripBreaks (cs : List Char) : List Char := cs.filter (fun c => !isBreak c)

/-- The text without its trailing `=` characters. -/
def stripPadding (cs : List Char) : List Char :=
  (cs.reverse.dropWhile (fun c => c == '=')).reverse

/-- The lengths of the lines of a text: the maximal runs of characters that
contain no CR and no LF. -/
def lineLengths (cs : List Char) : List Nat :=
  (cs.splitOnP isBreak).map List.length

/-- The value of a character of the RFC 2045 alphabet: `A` is 0, `/` is 63. -/
def rfcValue (c : Char) : Option Nat :=
  let n := c.toNat
  if 65 ≤ n ∧ n ≤ 90 then some (n - 65)
  else if 97 ≤ n ∧ n ≤ 122 then some (n - 97 + 26)
  else if 48 ≤ n ∧ n ≤ 57 then some (n - 48 + 52)
  else if c = '+' then some 62
  else if c = '/' then some 63
  else none

/-- The byte made of the low eight bits of a number. -/
def lowByte (n : Nat) : Byte := ⟨n % 256, Nat.mod_lt _ (by decide)⟩

/-- The decoder of RFC 2045 section 6.8 (the same as RFC 4648 section 4) on
text without padding and line breaks.  Four characters are the four 6-bit
digits of a 24-bit number, the first character the most significant, and
that number is three bytes, the first byte the most significant.  A final
word of three characters carries two bytes and one of two characters one
byte.  This decoder is not part of the repository. -/
def rfcDecode : List Char → Option (List Byte)
  | [] => some []
  | [_] => none
  | [c0, c1] => do
    let v0 ← rfcValue c0
    let v1 ← rfcValue c1
    let n := v0 <<< 18 ||| v1 <<< 12
    pure [lowByte (n >>> 16)]
  | [c0, c1, c2] => do
    let v0 ← rfcValue c0
    let v1 ← rfcValue c1
    let v2 ← rfcValue c2
    let n := v0 <<< 18 ||| v1 <<< 12 ||| v2 <<< 6
    pure [lowByte (n >>> 16), lowByte (n >>> 8)]
  | c0 :: c1 :: c2 :: c3 :: rest => do
    let v0 ← rfcValue c0
    let v1 ← rfcValue c1
    let v2 ← rfcValue c2
    let v3 ← rfcValue c3
    let n := v0 <<< 18 ||| v1 <<< 12 ||| v2 <<< 6 ||| v3
    let tail ← rfcDecode rest
    pure (lowByte (n >>> 16) :: lowByte (n >>> 8) :: lowByte n :: tail)

/-- Decoding the output of the encoder as the round trip prescribes: drop
CR and LF, drop the trailing padding, decode. -/
def roundTrip (r : Except Fault St) : Option (List Byte) :=
  (written r).bind (fun cs => rfcDecode (stripPadding (stripBreaks cs)))


/-- The stores so far went to the cells `0 .. j - 1`, in that order. -/
def Consecutive (s : St) : Prop := s.dst.map Prod.fst = List.range s.j

/-- The value lines 58-59 leave in an empty `group` after reading the bytes
`b0`, `b1`, `b2`: byte 0 is in the low bits. -/
def pack3 (b0 b1 b2 : Byte) : Nat := b0.val + 256 * b1.val + 65536 * b2.val

/-- The state after lines 58-63 for a group `g` read into an empty `group`:
three bytes are consumed and four characters stored, low six bits first. -/
def afterWord (g : Nat) (s : St) : St :=
  { s with
    group := 0
    i := s.i + 3
    j := s.j + 4
    k := 4
    dst := s.dst ++ [(s.j, b64char g), (s.j + 1, b64char (g >>> 6)),
      (s.j + 2, b64char (g >>> 12)), (s.j + 3, b64char (g >>> 18))] }

/-- The number of turns of the main loop of `encb64`: the loop starts a new
group of three bytes as long as `i < alignlen`. -/
def mainTurns (len : Nat) : Nat := (len - len % WORDLEN + 2) / 3

/-! ## Notions for the claims on the structure of the output -/

/-- The value `leftover` of line 55: `leftover = len % WORDLEN;`. -/
def leftover (len : Nat) : Nat := len % WORDLEN

/-- The value `alignlen` of line 56: `alignlen = len - leftover;`. -/
def alignlen (len : Nat) : Nat := len - leftover len

/-- The variant of `encb64` that the specification names: the same
statements, with `leftover = len % GROUPLEN` in line 55, so that the main
loop takes every whole group of three bytes. -/
def encb64ByGroups (src : List Byte) (len : Nat) : Except Fault St := do
  let leftover := len % GROUPLEN
  let alignlen := len - leftover
  let s ← whileLoop (fun s => s.i < alignlen) (groupBody src) alignlen
    { linelen := 0, group := 0, i := 0, j := 0, k := 0, dst := [] }
  let s ← grabLoop src leftover s
  let s ← convLoop s
  let s ← padLoop s
  pure (terminate s)

/-- The byte `src[i]` of an input; the fallback is for indices outside it. -/
def byteAt (src : List Byte) (i : Nat) : Byte := src.getD i 0

/-- The number `g = b0 + 256*b1 + 65536*b2` of the group number `t` of an
input, the bytes `b0 = src[3t]`, `b1 = src[3t+1]`, `b2 = src[3t+2]`. -/
def refGroup (src : List Byte) (t : Nat) : Nat :=
  (byteAt src (3 * t)).val + 256 * (byteAt src (3 * t + 1)).val +
    65536 * (byteAt src (3 * t + 2)).val

/-- The word of a group `g`: the four characters `b64set[(g >> 6t) & 63]`
for `t = 0, 1, 2, 3`. -/
def refWord (g : Nat) : List Char :=
  (List.range 4).map (fun t => b64set.getD ((g >>> (6 * t)) &&& 63) 'A')

/-- The words of the first `n` groups of an input, in order, with a CRLF
after every 19th word. -/
def refWords (src : List Byte) : Nat → List Char
  | 0 => []
  | n + 1 => refWords src n ++ refWord (refGroup src n) ++
      (if (n + 1) % 19 = 0 then ['\r', '\n'] else [])

/-- The reference encoding of an input of whole groups: the words of its
`n / 3` groups with a CRLF after every 19th word, and one final CRLF when
`n / 3` is not a multiple of 19. -/
def refEncode (src : List Byte) : List Char :=
  refWords src (src.length / 3) ++
    (if (src.length / 3) % 19 ≠ 0 then ['\r', '\n'] else [])

/-- The characters lines 76-79 store for a value `g` of `group`: one per
six bits, low bits first, until nothing is left of `g`. -/
def digitsOf (g : Nat) : List Char :=
  if g = 0 then [] else b64char g :: digitsOf (g >>> 6)
termination_by g
decreasing_by
  rename_i h
  rw [Nat.shiftRight_eq_div_pow]
  exact Nat.div_lt_self (Nat.pos_of_ne_zero h) (by norm_num)

/-- The number of `=` lines 81-86 store after `k` conversions. -/
def padCount (k : Nat) : Nat := if k = 0 then 0 else if k < 4 then 4 - k else 1

/-- The characters lines 76-86 store for a value `g` of `group`. -/
def tailChars (g : Nat) : List Char :=
  digitsOf g ++ List.replicate (padCount (digitsOf g).length) '='

/-- The value lines 73-74 leave in an empty `group` after reading `r` bytes
from `src[i]` on, for `r` from 0 to 3. -/
def tailGroup (src : List Byte) (i r : Nat) : Nat :=
  pack3 (if 0 < r then byteAt src i else 0) (if 1 < r then byteAt src (i + 1) else 0)
    (if 2 < r then byteAt src (i + 2) else 0)

/-- A character that may appear in the output: one of the alphabet, `=`, CR
or LF. -/
def Allowed (c : Char) : Prop := c ∈ b64set ∨ c = '=' ∨ c = '\r' ∨ c = '\n'

/-- Every CR of a text is immediately followed by LF. -/
def CrLfPaired (cs : List Char) : Prop :=
  ∀ n, cs[n]? = some '\r' → cs[n + 1]? = some '\n'

/-- The characters stored so far are all allowed and every CR among them
has its LF. -/
def Clean (s : St) : Prop :=
  (∀ c ∈ s.dst.map Prod.snd, Allowed c) ∧ CrLfPaired (s.dst.map Prod.snd)

/-! ## Basic facts about the embedding -/

/-- The index `group & 0x3f` is inside the table `b64set`. -/
theorem b64set_index_in_range (group : Nat) : (group &&& 0x3f) < b64set.length := by
  have h : group &&& 0x3f < 2 ^ 6 := Nat.and_lt_two_pow _ (by norm_num)
  have hl : b64set.length = 64 := by decide
  omega

/-- For `count ≤ 2 ^ 63` the result of `encb64len`, which is the largest
value the function computes, fits a 64-bit `size_t`. -/
theorem encb64len_no_overflow (count : Nat) (h : count ≤ 2 ^ 63) :
    encb64len count < 2 ^ 64 := by
  simp only [encb64len, GROUPLEN, WORDLEN, MAXLINE]
  split_ifs <;> omega

/-- A property kept by the body of a loop holds when the loop is left, and
the loop condition is then false. -/
theorem whileLoop_ok_inv {cond : St → Bool} {body : St → Except Fault St}
    (P : St → Prop)
    (hb : ∀ s s', cond s = true → P s → body s = .ok s' → P s') :
    ∀ n s s', P s → whileLoop cond body n s = .ok s' → P s' ∧ cond s' = false := by
  intro n
  induction n with
  | zero =>
    intro s s' hP h
    unfold whileLoop at h
    by_cases hc : cond s = true
    · simp [hc] at h
    · simp only [hc] at h
      cases h
      exact ⟨hP, by simpa using hc⟩
  | succ n ih =>
    intro s s' hP h
    unfold whileLoop at h
    by_cases hc : cond s = true
    · simp only [hc, if_true] at h
      cases hbs : body s with
      | error e => simp [hbs, bind, Except.bind] at h
      | ok t =>
        simp only [hbs, bind, Except.bind] at h
        exact ih t s' (hb s t hc hP hbs) h
    · simp only [hc] at h
      cases h
      exact ⟨hP, by simpa using hc⟩

/-- A loop whose body lowers a measure that the budget covers is never cut
off by the budget. -/
theorem whileLoop_fuel_free {cond : St → Bool} {body : St → Except Fault St}
    (μ : St → Nat)
    (hpos : ∀ s, cond s = true → 0 < μ s)
    (hdec : ∀ s s', cond s = true → body s = .ok s' → μ s' < μ s)
    (hf : ∀ s, body s ≠ .error .fuel) :
    ∀ n s, μ s ≤ n → whileLoop cond body n s ≠ .error .fuel := by
  intro n
  induction n with
  | zero =>
    intro s hμ
    unfold whileLoop
    by_cases hc : cond s = true
    · have := hpos s hc
      omega
    · simp [hc]
  | succ n ih =>
    intro s hμ
    unfold whileLoop
    by_cases hc : cond s = true
    · simp only [hc, if_true]
      cases hbs : body s with
      | error e =>
        simp only [bind, Except.bind]
        intro h
        cases h
        exact hf s hbs
      | ok t =>
        simp only [bind, Except.bind]
        have := hdec s t hc hbs
        exact ih t (by omega)
    · simp [hc]

/-! ## The loops of `encb64` always finish -/

/-- A successful read moves `i` by one and leaves the rest alone. -/
theorem grab_ok {src : List Byte} {s s' : St} (h : grab src s = .ok s') :
    s'.i = s.i + 1 ∧ s'.k = s.k ∧ s'.j = s.j ∧ s'.dst = s.dst ∧
      s'.linelen = s.linelen := by
  unfold grab at h
  split at h
  · cases h
  · cases h
    simp

theorem grab_ne_fuel (src : List Byte) (s : St) : grab src s ≠ .error .fuel := by
  unfold grab
  split <;> simp

/-- The four characters of a word are stored without any test on the data. -/
theorem wordLoop_eq (s : St) :
    wordLoop s = .ok (incK (emit (incK (emit (incK (emit (incK (emit { s with k := 0 })))))))) := by
  rfl

/-- One turn of a read loop: `i` and `k` move by one. -/
theorem grab_incK_ok {src : List Byte} {s s' : St}
    (h : (grab src s).map incK = .ok s') :
    s'.i = s.i + 1 ∧ s'.k = s.k + 1 ∧ s'.j = s.j ∧ s'.dst = s.dst ∧
      s'.linelen = s.linelen := by
  cases hg : grab src s with
  | error e => simp [hg, Except.map] at h
  | ok t =>
    simp only [hg, Except.map] at h
    cases h
    have := grab_ok hg
    simp [incK, this]

/-- A read loop that succeeds has read `bound` bytes and stored nothing. -/
theorem grabLoop_ok {src : List Byte} {bound : Nat} {s s' : St}
    (h : grabLoop src bound s = .ok s') :
    s'.i = s.i + bound ∧ s'.k = bound ∧ s'.j = s.j ∧ s'.dst = s.dst ∧
      s'.linelen = s.linelen := by
  have key := whileLoop_ok_inv
    (fun t : St => t.i = s.i + t.k ∧ t.k ≤ bound ∧ t.j = s.j ∧ t.dst = s.dst ∧
      t.linelen = s.linelen)
    (by
      intro t t' hc hP hb
      have hk : t.k < bound := by simpa using hc
      obtain ⟨g1, g2, g3, g4, g5⟩ := grab_incK_ok hb
      obtain ⟨p1, p2, p3, p4, p5⟩ := hP
      exact ⟨by omega, by omega, by omega, by rw [g4, p4], by omega⟩)
    bound { s with k := 0 } s' (by simp) h
  obtain ⟨⟨h1, h2, h3, h4, h5⟩, hc⟩ := key
  have hk : ¬ s'.k < bound := by simpa using hc
  have : s'.k = bound := by omega
  refine ⟨by omega, this, h3, h4, h5⟩

theorem grabLoop_fuel_free (src : List Byte) (bound : Nat) (s : St) :
    grabLoop src bound s ≠ .error .fuel := by
  unfold grabLoop
  apply whileLoop_fuel_free (fun t => bound - t.k)
  · intro t hc
    have hk : t.k < bound := by simpa using hc
    show 0 < bound - t.k
    omega
  · intro t t' hc hb
    have hk : t.k < bound := by simpa using hc
    have := grab_incK_ok hb
    show bound - t'.k < bound - t.k
    omega
  · intro t h
    cases hg : grab src t with
    | error e =>
      simp only [hg, Except.map] at h
      cases h
      exact grab_ne_fuel src t hg
    | ok u => simp [hg, Except.map] at h
  · show bound - 0 ≤ bound
    omega

/-- One conversion step: a character is stored, `group` loses six bits. -/
theorem incK_emit_fields (s : St) :
    (incK (emit s)).group = s.group >>> B64_BIT ∧ (incK (emit s)).i = s.i ∧
      (incK (emit s)).j = s.j + 1 ∧ (incK (emit s)).k = s.k + 1 ∧
      (incK (emit s)).linelen = s.linelen ∧
      (incK (emit s)).dst = s.dst ++ [(s.j, b64char s.group)] := by
  simp [incK, emit, putInc]

theorem convLoop_fuel_free (s : St) : convLoop s ≠ .error .fuel := by
  unfold convLoop
  apply whileLoop_fuel_free (fun t => t.group)
  · intro t hc
    have hk : t.group ≠ 0 := by simpa using hc
    show 0 < t.group
    omega
  · intro t t' hc hb
    have hk : t.group ≠ 0 := by simpa using hc
    cases hb
    show (incK (emit t)).group < t.group
    rw [(incK_emit_fields t).1, B64_BIT, Nat.shiftRight_eq_div_pow]
    exact Nat.div_lt_self (by omega) (by norm_num)
  · intro t h
    cases h
  · exact Nat.le_refl _

theorem padLoop_fuel_free (s : St) : padLoop s ≠ .error .fuel := by
  unfold padLoop
  split
  · apply whileLoop_fuel_free (fun t => WORDLEN - t.k)
    · intro t hc
      have hk : t.k < WORDLEN := by simpa using hc
      show 0 < WORDLEN - t.k
      omega
    · intro t t' hc hb
      have hk : t.k < WORDLEN := by simpa using hc
      cases hb
      show WORDLEN - (incK (putInc '=' t)).k < WORDLEN - t.k
      simp only [incK, putInc]
      omega
    · intro t h
      cases h
    · show WORDLEN - (incK (putInc '=' s)).k ≤ WORDLEN
      omega
  · simp

/-- A turn of the main loop that succeeds has read three bytes. -/
theorem groupBody_ok_i {src : List Byte} {s s' : St}
    (h : groupBody src s = .ok s') : s'.i = s.i + GROUPLEN := by
  unfold groupBody at h
  cases hg : grabLoop src GROUPLEN s with
  | error e => simp [hg, bind, Except.bind] at h
  | ok t =>
    simp only [hg, bind, Except.bind, wordLoop_eq, pure, Except.pure] at h
    cases h
    have := (grabLoop_ok hg).1
    simp only [wrapLine]
    split <;> simp [incK, emit, putInc, this]

theorem groupBody_fuel_free (src : List Byte) (s : St) :
    groupBody src s ≠ .error .fuel := by
  unfold groupBody
  cases hg : grabLoop src GROUPLEN s with
  | error e =>
    simp only [bind, Except.bind]
    intro h
    cases h
    exact grabLoop_fuel_free src GROUPLEN s hg
  | ok t => simp [bind, Except.bind, wordLoop_eq, pure, Except.pure]

/-- The encoder is total: no loop of `encb64` is ever cut off by its
budget, so every run ends in a final state or in a read outside `src`. -/
theorem encb64_fuel_free (src : List Byte) (len : Nat) :
    encb64 src len ≠ .error .fuel := by
  unfold encb64
  simp only []
  cases h1 : whileLoop (fun s => decide (s.i < len - len % WORDLEN)) (groupBody src)
      (len - len % WORDLEN)
      { linelen := 0, group := 0, i := 0, j := 0, k := 0, dst := [] } with
  | error e =>
    simp only [bind, Except.bind]
    intro h
    cases h
    refine whileLoop_fuel_free (fun t => (len - len % WORDLEN) - t.i) ?_ ?_ ?_ _ _ ?_ h1
    · intro t hc
      have hk : t.i < len - len % WORDLEN := by simpa using hc
      show 0 < (len - len % WORDLEN) - t.i
      omega
    · intro t t' hc hb
      have hk : t.i < len - len % WORDLEN := by simpa using hc
      have := groupBody_ok_i hb
      show (len - len % WORDLEN) - t'.i < (len - len % WORDLEN) - t.i
      simp only [GROUPLEN] at this
      omega
    · exact groupBody_fuel_free src
    · show (len - len % WORDLEN) - 0 ≤ len - len % WORDLEN
      omega
  | ok s1 =>
    simp only [bind, Except.bind]
    cases h2 : grabLoop src (len % WORDLEN) s1 with
    | error e =>
      simp only []
      intro h
      cases h
      exact grabLoop_fuel_free _ _ _ h2
    | ok s2 =>
      simp only []
      cases h3 : convLoop s2 with
      | error e =>
        simp only []
        intro h
        cases h
        exact convLoop_fuel_free _ h3
      | ok s3 =>
        simp only []
        cases h4 : padLoop s3 with
        | error e =>
          simp only []
          intro h
          cases h
          exact padLoop_fuel_free _ h4
        | ok s4 => simp [pure, Except.pure]

/-! ## The stores go to `dst[0]`, `dst[1]`, ... in order -/

theorem consecutive_putInc (c : Char) {s : St} (h : Consecutive s) :
    Consecutive (putInc c s) := by
  unfold Consecutive at *
  simp [putInc, h, List.range_succ]

theorem consecutive_incK {s : St} (h : Consecutive s) : Consecutive (incK s) := h

theorem consecutive_emit {s : St} (h : Consecutive s) : Consecutive (emit s) :=
  consecutive_putInc (b64char s.group) h

theorem consecutive_wrapLine {s : St} (h : Consecutive s) :
    Consecutive (wrapLine s) := by
  unfold wrapLine
  simp only []
  split
  · exact consecutive_putInc _ (consecutive_putInc _ h)
  · exact h

theorem consecutive_grabLoop {src : List Byte} {bound : Nat} {s s' : St}
    (h : Consecutive s) (hr : grabLoop src bound s = .ok s') : Consecutive s' := by
  obtain ⟨_, _, hj, hd, _⟩ := grabLoop_ok hr
  unfold Consecutive at *
  rw [hj, hd, h]

theorem consecutive_groupBody {src : List Byte} {s s' : St}
    (h : Consecutive s) (hr : groupBody src s = .ok s') : Consecutive s' := by
  unfold groupBody at hr
  cases hg : grabLoop src GROUPLEN s with
  | error e => simp [hg, bind, Except.bind] at hr
  | ok t =>
    simp only [hg, bind, Except.bind, wordLoop_eq, pure, Except.pure] at hr
    cases hr
    have ht0 : Consecutive t := consecutive_grabLoop h hg
    have ht : Consecutive { t with k := 0 } := ht0
    exact consecutive_wrapLine (consecutive_incK (consecutive_emit
      (consecutive_incK (consecutive_emit (consecutive_incK (consecutive_emit
      (consecutive_incK (consecutive_emit ht))))))))

theorem consecutive_convLoop {s s' : St} (h : Consecutive s)
    (hr : convLoop s = .ok s') : Consecutive s' := by
  unfold convLoop at hr
  refine (whileLoop_ok_inv Consecutive ?_ _ { s with k := 0 } _ h hr).1
  intro t t' _ hP hb
  cases hb
  exact consecutive_incK (consecutive_emit hP)

theorem consecutive_padLoop {s s' : St} (h : Consecutive s)
    (hr : padLoop s = .ok s') : Consecutive s' := by
  unfold padLoop at hr
  split at hr
  · refine (whileLoop_ok_inv Consecutive ?_ _ _ _
      (consecutive_incK (consecutive_putInc _ h)) hr).1
    intro t t' _ hP hb
    cases hb
    exact consecutive_incK (consecutive_putInc _ hP)
  · cases hr
    exact h

/-- Every run of `encb64` that ends stores to the cells `0, 1, 2, ...` of
`dst`, each once and in that order; the number of characters written is
one more than the largest index stored to. -/
theorem encb64_stores_consecutive {src : List Byte} {len : Nat} {s : St}
    (h : encb64 src len = .ok s) :
    s.dst.map Prod.fst = List.range s.dst.length := by
  unfold encb64 at h
  simp only [] at h
  cases h1 : whileLoop (fun s => decide (s.i < len - len % WORDLEN)) (groupBody src)
      (len - len % WORDLEN)
      { linelen := 0, group := 0, i := 0, j := 0, k := 0, dst := [] } with
  | error e => simp [h1, bind, Except.bind] at h
  | ok s1 =>
    have c1 : Consecutive s1 :=
      (whileLoop_ok_inv Consecutive (fun t t' _ hP hb => consecutive_groupBody hP hb)
        _ _ _ (by simp [Consecutive]) h1).1
    simp only [h1, bind, Except.bind] at h
    cases h2 : grabLoop src (len % WORDLEN) s1 with
    | error e => simp [h2] at h
    | ok s2 =>
      simp only [h2] at h
      cases h3 : convLoop s2 with
      | error e => simp [h3] at h
      | ok s3 =>
        simp only [h3] at h
        cases h4 : padLoop s3 with
        | error e => simp [h4] at h
        | ok s4 =>
          simp only [h4, pure, Except.pure] at h
          cases h
          have c4 : Consecutive s4 :=
            consecutive_padLoop (consecutive_convLoop (consecutive_grabLoop c1 h2) h3) h4
          unfold Consecutive at c4
          have hl := congrArg List.length c4
          simp only [List.length_map, List.length_range] at hl
          unfold terminate
          split
          · simp [put, putInc, c4, hl, List.range_succ]
          · rw [c4, hl]

/-! ## What one turn of the main loop does -/

/-- A loop whose body, under an invariant, succeeds, keeps the invariant and
lowers a measure runs to its end within a budget that covers the measure. -/
theorem whileLoop_total (cond : St → Bool) (body : St → Except Fault St)
    (P : St → Prop) (μ : St → Nat)
    (hb : ∀ s, cond s = true → P s → ∃ s', body s = .ok s' ∧ P s' ∧ μ s' < μ s) :
    ∀ n s, P s → μ s ≤ n →
      ∃ s', whileLoop cond body n s = .ok s' ∧ P s' ∧ cond s' = false := by
  intro n
  induction n with
  | zero =>
    intro s hP hμ
    unfold whileLoop
    by_cases hc : cond s = true
    · obtain ⟨t, _, _, hlt⟩ := hb s hc hP
      omega
    · exact ⟨s, by simp [hc], hP, by simpa using hc⟩
  | succ n ih =>
    intro s hP hμ
    unfold whileLoop
    by_cases hc : cond s = true
    · obtain ⟨t, hbt, hPt, hlt⟩ := hb s hc hP
      obtain ⟨s', hr, hP', hc'⟩ := ih t hPt (by omega)
      exact ⟨s', by simp [hc, hbt, bind, Except.bind, hr], hP', hc'⟩
    · exact ⟨s, by simp [hc], hP, by simpa using hc⟩

/-- Packing three bytes with `|` and `<<` into a 32-bit group is adding them
with weights 1, 256 and 65536. -/
theorem pack3_eq (b0 b1 b2 : Byte) :
    ((((0 ||| b0.val <<< (0 * CHAR_BIT)) % 2 ^ 32 ||| b1.val <<< (1 * CHAR_BIT)) % 2 ^ 32
      ||| b2.val <<< (2 * CHAR_BIT)) % 2 ^ 32) = pack3 b0 b1 b2 := by
  have h0 := b0.isLt
  have h1 := b1.isLt
  have h2 := b2.isLt
  have e1 : b0.val ||| b1.val <<< 8 = 256 * b1.val + b0.val := by
    rw [Nat.shiftLeft_eq, Nat.or_comm, Nat.mul_comm]
    exact (Nat.mul_add_lt_is_or (i := 8) (by omega) _).symm
  have e2 : (256 * b1.val + b0.val) ||| b2.val <<< 16 =
      65536 * b2.val + (256 * b1.val + b0.val) := by
    rw [Nat.shiftLeft_eq, Nat.or_comm, Nat.mul_comm]
    exact (Nat.mul_add_lt_is_or (i := 16) (by omega) _).symm
  simp only [CHAR_BIT, Nat.zero_mul, Nat.shiftLeft_zero, Nat.zero_or, Nat.one_mul]
  rw [Nat.mod_eq_of_lt (by omega : b0.val < 2 ^ 32), e1,
    Nat.mod_eq_of_lt (by omega : 256 * b1.val + b0.val < 2 ^ 32), e2,
    Nat.mod_eq_of_lt (by omega)]
  unfold pack3
  omega

theorem pack3_lt (b0 b1 b2 : Byte) : pack3 b0 b1 b2 < 2 ^ 24 := by
  have h0 := b0.isLt
  have h1 := b1.isLt
  have h2 := b2.isLt
  unfold pack3
  omega

/-- Lines 58-59 on an empty group with three readable bytes. -/
theorem grabLoop_three {src : List Byte} {s : St} {b0 b1 b2 : Byte}
    (hg : s.group = 0) (h0 : src[s.i]? = some b0) (h1 : src[s.i + 1]? = some b1)
    (h2 : src[s.i + 2]? = some b2) :
    grabLoop src GROUPLEN s =
      .ok { s with group := pack3 b0 b1 b2, i := s.i + 3, k := 3 } := by
  have hp := pack3_eq b0 b1 b2
  simp only [CHAR_BIT] at hp
  simp [grabLoop, GROUPLEN, whileLoop, grab, incK, Except.map, bind, Except.bind,
    h0, h1, h2, hg, CHAR_BIT]
  simpa using hp

/-- Lines 58-69 on an empty group with three readable bytes: the group is
packed, its four characters are stored and the line is wrapped; `group` is
empty again afterwards. -/
theorem groupBody_eq {src : List Byte} {s : St} {b0 b1 b2 : Byte}
    (hg : s.group = 0) (h0 : src[s.i]? = some b0) (h1 : src[s.i + 1]? = some b1)
    (h2 : src[s.i + 2]? = some b2) :
    groupBody src s = .ok (wrapLine (afterWord (pack3 b0 b1 b2) s)) := by
  have hz : pack3 b0 b1 b2 >>> 18 >>> 6 = 0 := by
    have := pack3_lt b0 b1 b2
    simp only [Nat.shiftRight_eq_div_pow]
    omega
  have h12 : pack3 b0 b1 b2 >>> 6 >>> 6 = pack3 b0 b1 b2 >>> 12 := by
    simp only [Nat.shiftRight_eq_div_pow]
    omega
  have h18 : pack3 b0 b1 b2 >>> 12 >>> 6 = pack3 b0 b1 b2 >>> 18 := by
    simp only [Nat.shiftRight_eq_div_pow]
    omega
  unfold groupBody
  rw [grabLoop_three hg h0 h1 h2]
  simp only [bind, Except.bind, wordLoop_eq, pure, Except.pure]
  congr 2
  simp [incK, emit, putInc, afterWord, B64_BIT, hz, h12, h18]

/-- What lines 64-69 do to the counters. -/
theorem wrapLine_fields (s : St) :
    (wrapLine s).group = s.group ∧ (wrapLine s).i = s.i ∧
    (wrapLine s).linelen = (if s.linelen + 4 = 76 then 0 else s.linelen + 4) ∧
    (wrapLine s).j = s.j + (if s.linelen + 4 = 76 then 2 else 0) ∧
    (wrapLine s).dst.length = s.dst.length + (if s.linelen + 4 = 76 then 2 else 0) := by
  unfold wrapLine
  simp only [WORDLEN, MAXLINE]
  split <;> simp [putInc]

/-- What one whole turn of the main loop does to the counters. -/
theorem wrapLine_afterWord_fields (g : Nat) (t : St) :
    (wrapLine (afterWord g t)).group = 0 ∧
    (wrapLine (afterWord g t)).i = t.i + 3 ∧
    (wrapLine (afterWord g t)).linelen = (if t.linelen + 4 = 76 then 0 else t.linelen + 4) ∧
    (wrapLine (afterWord g t)).j = t.j + 4 + (if t.linelen + 4 = 76 then 2 else 0) ∧
    (wrapLine (afterWord g t)).dst.length =
      t.dst.length + 4 + (if t.linelen + 4 = 76 then 2 else 0) := by
  obtain ⟨w1, w2, w3, w4, w5⟩ := wrapLine_fields (afterWord g t)
  refine ⟨w1, w2, w3, w4, ?_⟩
  rw [w5]
  simp [afterWord]

/-! ## The main loop as a whole -/

/-- The main loop of `encb64` runs to its end when `src` has three readable
bytes for each of its `mainTurns len` turns.  It then has read exactly
`3 * mainTurns len` bytes, `group` is empty, and with `n = mainTurns len`
words written `linelen` is `4 * (n mod 19)` and `j` is `4 * n + 2 * (n / 19)`,
which is also the number of stores. -/
theorem mainLoop_run (src : List Byte) (len : Nat)
    (h : 3 * mainTurns len ≤ src.length) :
    ∃ s, whileLoop (fun s => decide (s.i < len - len % WORDLEN)) (groupBody src)
        (len - len % WORDLEN)
        { linelen := 0, group := 0, i := 0, j := 0, k := 0, dst := [] } = .ok s ∧
      s.group = 0 ∧ s.i = 3 * mainTurns len ∧
      s.linelen = 4 * (mainTurns len % 19) ∧
      s.j = 4 * mainTurns len + 2 * (mainTurns len / 19) ∧
      s.dst.length = s.j := by
  obtain ⟨s, hr, hP, hc⟩ := whileLoop_total
    (fun s => decide (s.i < len - len % WORDLEN)) (groupBody src)
    (fun t : St => t.group = 0 ∧ t.i % 3 = 0 ∧ t.i ≤ len - len % WORDLEN + 2 ∧
      t.linelen = 4 * ((t.i / 3) % 19) ∧
      t.j = 4 * (t.i / 3) + 2 * ((t.i / 3) / 19) ∧ t.dst.length = t.j)
    (fun t => len - len % WORDLEN - t.i)
    (by
      intro t hc hP
      have hk : t.i < len - len % WORDLEN := by simpa using hc
      obtain ⟨p1, p2, p3, p4, p5, p6⟩ := hP
      have hlen : t.i + 3 ≤ src.length := by
        unfold mainTurns at h
        omega
      have e0 : src[t.i]? = some (src[t.i]) := List.getElem?_eq_getElem (by omega)
      have e1 : src[t.i + 1]? = some (src[t.i + 1]) := List.getElem?_eq_getElem (by omega)
      have e2 : src[t.i + 2]? = some (src[t.i + 2]) := List.getElem?_eq_getElem (by omega)
      refine ⟨_, groupBody_eq p1 e0 e1 e2, ?_, ?_⟩
      · obtain ⟨w1, w2, w3, w4, w5⟩ :=
          wrapLine_afterWord_fields (pack3 src[t.i] src[t.i + 1] src[t.i + 2]) t
        refine ⟨w1, ?_, ?_, ?_, ?_, ?_⟩
        · rw [w2]; omega
        · rw [w2]; omega
        · rw [w3, w2]; split <;> omega
        · rw [w4, w2]; split <;> omega
        · rw [w5, w4]; omega
      · have w2 := (wrapLine_afterWord_fields
          (pack3 src[t.i] src[t.i + 1] src[t.i + 2]) t).2.1
        show len - len % WORDLEN - _ < len - len % WORDLEN - t.i
        rw [w2]
        omega)
    (len - len % WORDLEN)
    { linelen := 0, group := 0, i := 0, j := 0, k := 0, dst := [] }
    (by simp) (by simp)
  have hk : ¬ s.i < len - len % WORDLEN := by simpa using hc
  obtain ⟨p1, p2, p3, p4, p5, p6⟩ := hP
  have hi : s.i = 3 * mainTurns len := by
    unfold mainTurns
    omega
  have hq : s.i / 3 = mainTurns len := by omega
  rw [hq] at p4 p5
  exact ⟨s, hr, p1, hi, p4, p5, p6⟩

/-! ## The run after the main loop -/

/-- A read loop succeeds when `bound` more bytes are readable. -/
theorem grabLoop_total (src : List Byte) (bound : Nat) (s : St)
    (h : s.i + bound ≤ src.length) : ∃ s', grabLoop src bound s = .ok s' := by
  obtain ⟨s', hr, _, _⟩ := whileLoop_total
    (fun t => decide (t.k < bound)) (fun t => (grab src t).map incK)
    (fun t : St => t.i + bound ≤ src.length + t.k ∧ t.k ≤ bound)
    (fun t => bound - t.k)
    (by
      intro t hc hP
      have hk : t.k < bound := by simpa using hc
      have hi : t.i < src.length := by omega
      have e : src[t.i]? = some (src[t.i]) := List.getElem?_eq_getElem hi
      have hb : (grab src t).map incK = .ok (incK { t with
          group := (t.group ||| (src[t.i]).val <<< (t.k * CHAR_BIT)) % 2 ^ 32,
          i := t.i + 1 }) := by
        simp only [grab, e, Except.map]
      refine ⟨_, hb, ?_, ?_⟩
      · simp only [incK]
        omega
      · simp only [incK]
        omega)
    bound { s with k := 0 } (by simpa using h) (by simp)
  exact ⟨s', hr⟩

/-- The conversion loop has no reads and always runs to its end. -/
theorem convLoop_total (s : St) : ∃ s', convLoop s = .ok s' := by
  obtain ⟨s', hr, _, _⟩ := whileLoop_total
    (fun t => decide (t.group ≠ 0)) (fun t => .ok (incK (emit t)))
    (fun _ : St => True) (fun t => t.group)
    (by
      intro t hc _
      have hk : t.group ≠ 0 := by simpa using hc
      refine ⟨_, rfl, trivial, ?_⟩
      show (incK (emit t)).group < t.group
      rw [(incK_emit_fields t).1, B64_BIT, Nat.shiftRight_eq_div_pow]
      exact Nat.div_lt_self (by omega) (by norm_num))
    s.group { s with k := 0 } trivial (Nat.le_refl _)
  exact ⟨s', hr⟩

/-- The padding loop has no reads and always runs to its end. -/
theorem padLoop_total (s : St) : ∃ s', padLoop s = .ok s' := by
  unfold padLoop
  split
  · obtain ⟨s', hr, _, _⟩ := whileLoop_total
      (fun t => decide (t.k < WORDLEN))
      (fun t => .ok (incK (putInc '=' t)))
      (fun _ : St => True) (fun t => WORDLEN - t.k)
      (by
        intro t hc _
        have hk : t.k < WORDLEN := by simpa using hc
        refine ⟨_, rfl, trivial, ?_⟩
        show WORDLEN - (incK (putInc '=' t)).k < WORDLEN - t.k
        simp only [incK, putInc]
        omega)
      WORDLEN (incK (putInc '=' s)) trivial (by
        show WORDLEN - (incK (putInc '=' s)).k ≤ WORDLEN
        omega)
    exact ⟨s', hr⟩
  · exact ⟨s, rfl⟩

/-- The encoder returns when `src` has `3 * mainTurns len + len mod 4`
readable bytes: these are exactly the bytes it reads. -/
theorem encb64_ok_of_readable (src : List Byte) (len : Nat)
    (h : 3 * mainTurns len + len % WORDLEN ≤ src.length) :
    ∃ s, encb64 src len = .ok s := by
  obtain ⟨s1, h1, _, hi, _⟩ := mainLoop_run src len (by omega)
  obtain ⟨s2, h2⟩ := grabLoop_total src (len % WORDLEN) s1
    (by omega)
  obtain ⟨s3, h3⟩ := convLoop_total s2
  obtain ⟨s4, h4⟩ := padLoop_total s3
  refine ⟨terminate s4, ?_⟩
  unfold encb64
  simp only [h1, h2, h3, h4, bind, Except.bind, pure, Except.pure]

/-- What lines 88-91 add to the log of stores. -/
theorem terminate_length (s : St) :
    (terminate s).dst.length = s.dst.length + (if s.linelen ≠ 0 then 2 else 0) := by
  unfold terminate
  split <;> simp [put, putInc]

/-- The size formula of the specification for a whole number of groups. -/
theorem encb64lenSpec_groups (m : Nat) :
    encb64lenSpec (3 * m) = 4 * m + 2 * (m / 19) + (if 4 * (m % 19) ≠ 0 then 2 else 0) := by
  unfold encb64lenSpec
  have h1 : 3 * m / 3 = m := by omega
  have h2 : 3 * m % 3 = 0 := by omega
  simp only [h1, h2]
  split_ifs <;> omega

/-- When `len` is a multiple of 12 and `src` has `len` readable bytes, the
encoder returns and has written `encb64lenSpec len` characters: four per
group of three bytes, a CRLF after every 76 of these, and a final CRLF when
the last line is not empty. -/
theorem encb64_aligned_length (src : List Byte) (len : Nat) (h12 : len % 12 = 0)
    (hlen : len ≤ src.length) :
    (written (encb64 src len)).map List.length = some (encb64lenSpec len) := by
  have hn : 3 * mainTurns len = len := by
    unfold mainTurns WORDLEN
    omega
  have h4 : len % WORDLEN = 0 := by
    unfold WORDLEN
    omega
  obtain ⟨s1, h1, hg, hi, hl, hj, hd⟩ := mainLoop_run src len (by omega)
  have h2 : grabLoop src (len % WORDLEN) s1 = .ok { s1 with k := 0 } := by
    simp [grabLoop, whileLoop, h4]
  have h3 : convLoop { s1 with k := 0 } = .ok { s1 with k := 0 } := by
    simp [convLoop, whileLoop, hg]
  have h5 : padLoop { s1 with k := 0 } = .ok { s1 with k := 0 } := by
    simp [padLoop]
  have hr : encb64 src len = .ok (terminate { s1 with k := 0 }) := by
    unfold encb64
    simp only [h1, h2, h3, h5, bind, Except.bind, pure, Except.pure]
  rw [hr]
  simp only [written, Option.map_some', List.length_map]
  congr 1
  rw [terminate_length, ← hn, encb64lenSpec_groups]
  simp only [hd, hj, hl]

/-- When `len` is a multiple of 12 and `src` has `len` readable bytes, the
stores of `encb64` go to the cells `0 .. encb64lenSpec len - 1` of `dst`. -/
theorem encb64_aligned_stores (src : List Byte) (len : Nat) (h12 : len % 12 = 0)
    (hlen : len ≤ src.length) :
    storeIndices (encb64 src len) = some (List.range (encb64lenSpec len)) := by
  have hw := encb64_aligned_length src len h12 hlen
  cases hr : encb64 src len with
  | error e => simp [hr, written] at hw
  | ok s =>
    simp only [hr, written, Option.map_some', List.length_map, Option.some.injEq] at hw
    simp only [storeIndices, encb64_stores_consecutive hr, hw]

/-- When `len mod 12` is 0, 1, 2 or 3 the encoder stays inside the first
`len` bytes of `src`: it returns whenever these are readable. -/
theorem encb64_ok_of_len_mod_12 (src : List Byte) (len : Nat) (h : len % 12 < 4)
    (hlen : len ≤ src.length) : ∃ s, encb64 src len = .ok s := by
  apply encb64_ok_of_readable
  unfold mainTurns WORDLEN
  omega

/-! ## The characters of the output -/

/-- The character for a group is taken from the table. -/
theorem b64char_mem (g : Nat) : b64char g ∈ b64set := by
  unfold b64char
  rw [List.getD_eq_getElem _ _ (b64set_index_in_range g)]
  exact List.getElem_mem _

theorem b64char_ne_cr (g : Nat) : b64char g ≠ '\r' := by
  intro h
  have hm := b64char_mem g
  rw [h] at hm
  revert hm
  decide

theorem b64char_ne_eq (g : Nat) : b64char g ≠ '=' := by
  intro h
  have hm := b64char_mem g
  rw [h] at hm
  revert hm
  decide

theorem crLfPaired_nil : CrLfPaired [] := by
  intro n h
  simp at h

/-- A text whose CRs are paired stays so when a text of the same kind
follows it. -/
theorem crLfPaired_append {xs ys : List Char} (hx : CrLfPaired xs)
    (hy : CrLfPaired ys) : CrLfPaired (xs ++ ys) := by
  intro n h
  by_cases hn : n < xs.length
  · rw [List.getElem?_append_left hn] at h
    have h1 := hx n h
    have hn1 : n + 1 < xs.length := by
      by_contra hc
      rw [List.getElem?_eq_none (by omega)] at h1
      cases h1
    rw [List.getElem?_append_left hn1]
    exact h1
  · rw [List.getElem?_append_right (by omega)] at h
    have h1 := hy _ h
    rw [List.getElem?_append_right (by omega)]
    have e : n + 1 - xs.length = n - xs.length + 1 := by omega
    rw [e]
    exact h1

theorem crLfPaired_single {c : Char} (hc : c ≠ '\r') : CrLfPaired [c] := by
  intro n h
  cases n with
  | zero =>
    simp at h
    exact absurd h hc
  | succ n => simp at h

theorem crLfPaired_crlf : CrLfPaired ['\r', '\n'] := by
  intro n h
  match n with
  | 0 => rfl
  | 1 => simp at h
  | n + 2 => simp at h

theorem clean_putInc {c : Char} {s : St} (ha : Allowed c) (hc : c ≠ '\r')
    (h : Clean s) : Clean (putInc c s) := by
  obtain ⟨h1, h2⟩ := h
  refine ⟨?_, ?_⟩
  · intro x hx
    simp only [putInc, List.map_append, List.map_cons, List.map_nil, List.mem_append,
      List.mem_singleton] at hx
    rcases hx with hx | hx
    · exact h1 x hx
    · rw [hx]; exact ha
  · simp only [putInc, List.map_append, List.map_cons, List.map_nil]
    exact crLfPaired_append h2 (crLfPaired_single hc)

/-- Storing CR and then LF keeps the output clean, with either form of the
second store. -/
theorem clean_crlf {s : St} (h : Clean s) :
    Clean (putInc '\n' (putInc '\r' s)) ∧ Clean (put '\n' (putInc '\r' s)) := by
  obtain ⟨h1, h2⟩ := h
  have key : (∀ c ∈ s.dst.map Prod.snd ++ ['\r', '\n'], Allowed c) ∧
      CrLfPaired (s.dst.map Prod.snd ++ ['\r', '\n']) := by
    refine ⟨?_, crLfPaired_append h2 crLfPaired_crlf⟩
    intro x hx
    simp only [List.mem_append, List.mem_cons, List.mem_singleton, List.not_mem_nil,
      or_false] at hx
    rcases hx with hx | hx | hx
    · exact h1 x hx
    · rw [hx]; exact Or.inr (Or.inr (Or.inl rfl))
    · rw [hx]; exact Or.inr (Or.inr (Or.inr rfl))
  constructor
  · simpa [Clean, putInc] using key
  · simpa [Clean, put, putInc] using key

theorem clean_emit {s : St} (h : Clean s) : Clean (incK (emit s)) :=
  clean_putInc (Or.inl (b64char_mem s.group)) (b64char_ne_cr s.group) h

theorem clean_pad {s : St} (h : Clean s) : Clean (incK (putInc '=' s)) :=
  clean_putInc (Or.inr (Or.inl rfl)) (by decide) h

theorem clean_wrapLine {s : St} (h : Clean s) : Clean (wrapLine s) := by
  unfold wrapLine
  simp only []
  split
  · exact (clean_crlf (s := { s with linelen := 0 }) h).1
  · exact h

theorem clean_grabLoop {src : List Byte} {bound : Nat} {s s' : St}
    (h : Clean s) (hr : grabLoop src bound s = .ok s') : Clean s' := by
  obtain ⟨_, _, _, hd, _⟩ := grabLoop_ok hr
  unfold Clean at *
  rw [hd]
  exact h

theorem clean_groupBody {src : List Byte} {s s' : St}
    (h : Clean s) (hr : groupBody src s = .ok s') : Clean s' := by
  unfold groupBody at hr
  cases hg : grabLoop src GROUPLEN s with
  | error e => simp [hg, bind, Except.bind] at hr
  | ok t =>
    simp only [hg, bind, Except.bind, wordLoop_eq, pure, Except.pure] at hr
    cases hr
    have ht0 : Clean t := clean_grabLoop h hg
    have ht : Clean { t with k := 0 } := ht0
    exact clean_wrapLine (clean_emit (clean_emit (clean_emit (clean_emit ht))))

theorem clean_convLoop {s s' : St} (h : Clean s) (hr : convLoop s = .ok s') :
    Clean s' := by
  unfold convLoop at hr
  refine (whileLoop_ok_inv Clean ?_ _ { s with k := 0 } _ h hr).1
  intro t t' _ hP hb
  cases hb
  exact clean_emit hP

theorem clean_padLoop {s s' : St} (h : Clean s) (hr : padLoop s = .ok s') :
    Clean s' := by
  unfold padLoop at hr
  split at hr
  · refine (whileLoop_ok_inv Clean ?_ _ _ _ (clean_pad h) hr).1
    intro t t' _ hP hb
    cases hb
    exact clean_pad hP
  · cases hr
    exact h

theorem clean_terminate {s : St} (h : Clean s) : Clean (terminate s) := by
  unfold terminate
  split
  · exact (clean_crlf h).2
  · exact h

/-- Every run of `encb64` that ends has stored only characters of the
alphabet, `=`, CR and LF, and every CR is followed by its LF. -/
theorem encb64_clean {src : List Byte} {len : Nat} {s : St}
    (h : encb64 src len = .ok s) : Clean s := by
  unfold encb64 at h
  simp only [] at h
  cases h1 : whileLoop (fun s => decide (s.i < len - len % WORDLEN)) (groupBody src)
      (len - len % WORDLEN)
      { linelen := 0, group := 0, i := 0, j := 0, k := 0, dst := [] } with
  | error e => simp [h1, bind, Except.bind] at h
  | ok s1 =>
    have c0 : Clean { linelen := 0, group := 0, i := 0, j := 0, k := 0, dst := [] } :=
      ⟨by simp, crLfPaired_nil⟩
    have c1 : Clean s1 :=
      (whileLoop_ok_inv Clean (fun t t' _ hP hb => clean_groupBody hP hb)
        _ _ _ c0 h1).1
    simp only [h1, bind, Except.bind] at h
    cases h2 : grabLoop src (len % WORDLEN) s1 with
    | error e => simp [h2] at h
    | ok s2 =>
      simp only [h2] at h
      cases h3 : convLoop s2 with
      | error e => simp [h3] at h
      | ok s3 =>
        simp only [h3] at h
        cases h4 : padLoop s3 with
        | error e => simp [h4] at h
        | ok s4 =>
          simp only [h4, pure, Except.pure] at h
          cases h
          exact clean_terminate
            (clean_padLoop (clean_convLoop (clean_grabLoop c1 h2) h3) h4)

/-- The table `b64set` is the alphabet of RFC 2045: the entry at index `i`
is the character whose value is `i`. -/
theorem b64set_is_rfc_table : ∀ i : Fin 64, rfcValue (b64set.getD i.val 'A') = some i.val := by
  decide

/-! ## The characters the main loop stores -/

theorem getElem?_byteAt (src : List Byte) (i : Nat) (h : i < src.length) :
    src[i]? = some (byteAt src i) := by
  unfold byteAt
  rw [List.getElem?_eq_getElem h, List.getD_eq_getElem _ _ h]

/-- The word of a group, character by character. -/
theorem refWord_eq (g : Nat) :
    refWord g = [b64char g, b64char (g >>> 6), b64char (g >>> 12), b64char (g >>> 18)] := by
  simp [refWord, b64char, List.range, List.range.loop]

theorem refWord_length (g : Nat) : (refWord g).length = 4 := by
  rw [refWord_eq]
  rfl

/-- The characters one whole turn of the main loop stores. -/
theorem wrapLine_afterWord_chars (g : Nat) (t : St) :
    (wrapLine (afterWord g t)).dst.map Prod.snd =
      t.dst.map Prod.snd ++ refWord g ++
        (if t.linelen + 4 = 76 then ['\r', '\n'] else []) := by
  rw [refWord_eq]
  unfold wrapLine
  simp only [WORDLEN, MAXLINE, afterWord]
  split <;> simp [putInc]

/-- The main loop of `encb64`, with what it stores: when `src` has three
readable bytes for each of the `n = mainTurns len` turns, the loop ends with
the words of the first `n` groups stored, a CRLF after every 19th. -/
theorem mainLoop_content (src : List Byte) (len : Nat)
    (h : 3 * mainTurns len ≤ src.length) :
    ∃ s, whileLoop (fun s => decide (s.i < len - len % WORDLEN)) (groupBody src)
        (len - len % WORDLEN)
        { linelen := 0, group := 0, i := 0, j := 0, k := 0, dst := [] } = .ok s ∧
      s.group = 0 ∧ s.i = 3 * mainTurns len ∧
      s.linelen = 4 * (mainTurns len % 19) ∧
      s.dst.map Prod.snd = refWords src (mainTurns len) := by
  obtain ⟨s, hr, hP, hc⟩ := whileLoop_total
    (fun s => decide (s.i < len - len % WORDLEN)) (groupBody src)
    (fun t : St => t.group = 0 ∧ t.i % 3 = 0 ∧ t.i ≤ len - len % WORDLEN + 2 ∧
      t.linelen = 4 * ((t.i / 3) % 19) ∧
      t.dst.map Prod.snd = refWords src (t.i / 3))
    (fun t => len - len % WORDLEN - t.i)
    (by
      intro t hc hP
      have hk : t.i < len - len % WORDLEN := by simpa using hc
      obtain ⟨p1, p2, p3, p4, p5⟩ := hP
      have hlen : t.i + 3 ≤ src.length := by
        unfold mainTurns at h
        omega
      have hq : t.i = 3 * (t.i / 3) := by omega
      have hg : pack3 (byteAt src t.i) (byteAt src (t.i + 1)) (byteAt src (t.i + 2)) =
          refGroup src (t.i / 3) := by
        unfold refGroup pack3
        rw [← hq]
      refine ⟨_, groupBody_eq p1 (getElem?_byteAt _ _ (by omega)) (getElem?_byteAt _ _ (by omega))
        (getElem?_byteAt _ _ (by omega)), ?_, ?_⟩
      · obtain ⟨w1, w2, w3, _, _⟩ := wrapLine_afterWord_fields
          (pack3 (byteAt src t.i) (byteAt src (t.i + 1)) (byteAt src (t.i + 2))) t
        have w6 := wrapLine_afterWord_chars
          (pack3 (byteAt src t.i) (byteAt src (t.i + 1)) (byteAt src (t.i + 2))) t
        have hq1 : (t.i + 3) / 3 = t.i / 3 + 1 := by omega
        refine ⟨w1, ?_, ?_, ?_, ?_⟩
        · rw [w2]; omega
        · rw [w2]; omega
        · rw [w3, w2]; split <;> omega
        · rw [w6, w2, hq1, refWords, p5, hg]
          congr 1
          have e : (t.linelen + 4 = 76) ↔ ((t.i / 3 + 1) % 19 = 0) := by omega
          simp only [e]
      · have w2 := (wrapLine_afterWord_fields
          (pack3 (byteAt src t.i) (byteAt src (t.i + 1)) (byteAt src (t.i + 2))) t).2.1
        show len - len % WORDLEN - _ < len - len % WORDLEN - t.i
        rw [w2]
        omega)
    (len - len % WORDLEN)
    { linelen := 0, group := 0, i := 0, j := 0, k := 0, dst := [] }
    (by simp [refWords]) (by simp)
  have hk : ¬ s.i < len - len % WORDLEN := by simpa using hc
  obtain ⟨p1, p2, p3, p4, p5⟩ := hP
  have hi : s.i = 3 * mainTurns len := by
    unfold mainTurns
    omega
  have hq : s.i / 3 = mainTurns len := by omega
  rw [hq] at p4 p5
  exact ⟨s, hr, p1, hi, p4, p5⟩

/-! ## The characters stored after the main loop -/

theorem digitsOf_zero : digitsOf 0 = [] := by
  rw [digitsOf]
  simp

theorem digitsOf_pos {g : Nat} (h : g ≠ 0) :
    digitsOf g = b64char g :: digitsOf (g >>> 6) := by
  rw [digitsOf]
  simp [h]

/-- Lines 73-74 on an empty group with `r ≤ 3` readable bytes. -/
theorem grabLoop_tail {src : List Byte} {s : St} {r : Nat}
    (hg : s.group = 0) (hr : r ≤ 3) (h : s.i + r ≤ src.length) :
    grabLoop src r s =
      .ok { s with group := tailGroup src s.i r, i := s.i + r, k := r } := by
  have h3 := pack3_eq (byteAt src s.i) (byteAt src (s.i + 1)) (byteAt src (s.i + 2))
  have h2 := pack3_eq (byteAt src s.i) (byteAt src (s.i + 1)) 0
  have h1 := pack3_eq (byteAt src s.i) 0 0
  simp only [CHAR_BIT] at h1 h2 h3
  match r, hr, h with
  | 0, _, _ =>
    simp [grabLoop, whileLoop, tailGroup, pack3, hg]
  | 1, _, h =>
    have e0 := getElem?_byteAt src s.i (by omega)
    simp [grabLoop, whileLoop, grab, incK, Except.map, bind, Except.bind, e0, hg,
      CHAR_BIT, tailGroup]
    simpa using h1
  | 2, _, h =>
    have e0 := getElem?_byteAt src s.i (by omega)
    have e1 := getElem?_byteAt src (s.i + 1) (by omega)
    simp [grabLoop, whileLoop, grab, incK, Except.map, bind, Except.bind, e0, e1, hg,
      CHAR_BIT, tailGroup]
    simpa using h2
  | 3, _, h =>
    have e0 := getElem?_byteAt src s.i (by omega)
    have e1 := getElem?_byteAt src (s.i + 1) (by omega)
    have e2 := getElem?_byteAt src (s.i + 2) (by omega)
    simp [grabLoop, whileLoop, grab, incK, Except.map, bind, Except.bind, e0, e1, e2, hg,
      CHAR_BIT, tailGroup]
    simpa using h3

/-- Lines 76-79 store the characters `digitsOf group`, count them in `k` and
leave `group` empty. -/
theorem convLoop_eq (s : St) :
    ∃ s', convLoop s = .ok s' ∧
      s'.dst.map Prod.snd = s.dst.map Prod.snd ++ digitsOf s.group ∧
      s'.k = (digitsOf s.group).length ∧ s'.linelen = s.linelen ∧ s'.group = 0 := by
  obtain ⟨s', hr, hP, hc⟩ := whileLoop_total
    (fun t => decide (t.group ≠ 0)) (fun t => .ok (incK (emit t)))
    (fun t : St => t.dst.map Prod.snd ++ digitsOf t.group =
        s.dst.map Prod.snd ++ digitsOf s.group ∧
      t.k + (digitsOf t.group).length = (digitsOf s.group).length ∧
      t.linelen = s.linelen)
    (fun t => t.group)
    (by
      intro t hc hP
      have hk : t.group ≠ 0 := by simpa using hc
      obtain ⟨p1, p2, p3⟩ := hP
      obtain ⟨f1, _, _, f4, f5, f6⟩ := incK_emit_fields t
      rw [digitsOf_pos hk] at p1 p2
      refine ⟨_, rfl, ⟨?_, ?_, ?_⟩, ?_⟩
      · rw [f6, f1, B64_BIT, ← p1]
        simp
      · rw [f4, f1, B64_BIT, ← p2]
        simp only [List.length_cons]
        omega
      · rw [f5, p3]
      · show (incK (emit t)).group < t.group
        rw [f1, B64_BIT, Nat.shiftRight_eq_div_pow]
        exact Nat.div_lt_self (by omega) (by norm_num))
    s.group { s with k := 0 } (by simp) (Nat.le_refl _)
  have hg : s'.group = 0 := by simpa using hc
  obtain ⟨p1, p2, p3⟩ := hP
  rw [hg, digitsOf_zero] at p1 p2
  refine ⟨s', hr, ?_, ?_, p3, hg⟩
  · simpa using p1
  · simpa using p2

/-- Lines 81-86 store `padCount k` characters `=`. -/
theorem padLoop_eq (s : St) :
    ∃ s', padLoop s = .ok s' ∧
      s'.dst.map Prod.snd = s.dst.map Prod.snd ++ List.replicate (padCount s.k) '=' ∧
      s'.linelen = s.linelen := by
  rcases Nat.lt_or_ge s.k 4 with h | h
  · have hk : s.k = 0 ∨ s.k = 1 ∨ s.k = 2 ∨ s.k = 3 := by omega
    rcases hk with hk | hk | hk | hk <;>
      simp [padLoop, whileLoop, incK, putInc, WORDLEN, padCount, hk, bind, Except.bind,
        List.replicate]
  · have h0 : s.k ≠ 0 := by omega
    have h1 : ¬ s.k + 1 < 4 := by omega
    have h2 : ¬ s.k < 4 := by omega
    simp [padLoop, whileLoop, incK, putInc, WORDLEN, padCount, h0, h1, h2, List.replicate]

/-- What lines 88-91 store. -/
theorem terminate_chars (s : St) :
    (terminate s).dst.map Prod.snd =
      s.dst.map Prod.snd ++ (if s.linelen ≠ 0 then ['\r', '\n'] else []) := by
  unfold terminate
  split <;> simp [put, putInc]

/-- The output of `encb64` in full, for every run that stays inside the
readable bytes of `src`: the words of the `n = mainTurns len` groups of the
main loop with a CRLF after every 19th, then the characters and padding of
the `len mod 4` bytes that follow, then a CRLF when the main loop left a
line open. -/
theorem encb64_written_eq (src : List Byte) (len : Nat)
    (h : 3 * mainTurns len + len % WORDLEN ≤ src.length) :
    written (encb64 src len) = some (refWords src (mainTurns len) ++
      tailChars (tailGroup src (3 * mainTurns len) (len % WORDLEN)) ++
      (if mainTurns len % 19 ≠ 0 then ['\r', '\n'] else [])) := by
  obtain ⟨s1, h1, hg, hi, hl, hd⟩ := mainLoop_content src len (by omega)
  have hr3 : len % WORDLEN ≤ 3 := by
    unfold WORDLEN
    omega
  have h2 := @grabLoop_tail src s1 (len % WORDLEN) hg hr3 (by omega)
  obtain ⟨s3, h3, c1, c2, c3, _⟩ := convLoop_eq
    { s1 with group := tailGroup src s1.i (len % WORDLEN), i := s1.i + len % WORDLEN,
              k := len % WORDLEN }
  obtain ⟨s4, h4, d1, d2⟩ := padLoop_eq s3
  have hr : encb64 src len = .ok (terminate s4) := by
    unfold encb64
    simp only [h1, h2, h3, h4, bind, Except.bind, pure, Except.pure]
  rw [hr]
  simp only [written, terminate_chars, d1, d2, c1, c2, c3, hd, hl, hi, tailChars]
  have e : (4 * (mainTurns len % 19) ≠ 0) ↔ (mainTurns len % 19 ≠ 0) := by omega
  simp only [e, List.append_assoc]

/-! ## Nothing is lost in a word -/

theorem b64set_nodup : b64set.Nodup := by
  decide

/-- Two groups with the same character agree in their low six bits. -/
theorem b64char_inj {g g' : Nat} (h : b64char g = b64char g') : g % 64 = g' % 64 := by
  unfold b64char at h
  rw [List.getD_eq_getElem _ _ (b64set_index_in_range g),
    List.getD_eq_getElem _ _ (b64set_index_in_range g')] at h
  have := (b64set_nodup.getElem_inj_iff).1 h
  have e : ∀ x : Nat, x &&& 0x3f = x % 64 := fun x => Nat.and_pow_two_sub_one_eq_mod x 6
  rw [e, e] at this
  exact this

/-- A group of 24 bits is determined by its word. -/
theorem refWord_inj {g g' : Nat} (hg : g < 2 ^ 24) (hg' : g' < 2 ^ 24)
    (h : refWord g = refWord g') : g = g' := by
  rw [refWord_eq, refWord_eq] at h
  simp only [List.cons.injEq, and_true] at h
  obtain ⟨h0, h1, h2, h3⟩ := h
  have e0 := b64char_inj h0
  have e1 := b64char_inj h1
  have e2 := b64char_inj h2
  have e3 := b64char_inj h3
  simp only [Nat.shiftRight_eq_div_pow] at e1 e2 e3
  omega

/-- Three bytes are determined by their group. -/
theorem pack3_inj {a0 a1 a2 b0 b1 b2 : Byte}
    (h : pack3 a0 a1 a2 = pack3 b0 b1 b2) : a0 = b0 ∧ a1 = b1 ∧ a2 = b2 := by
  unfold pack3 at h
  have := a0.isLt
  have := a1.isLt
  have := a2.isLt
  have := b0.isLt
  have := b1.isLt
  have := b2.isLt
  refine ⟨Fin.ext ?_, Fin.ext ?_, Fin.ext ?_⟩ <;> omega

theorem refGroup_lt (src : List Byte) (t : Nat) : refGroup src t < 2 ^ 24 :=
  pack3_lt _ _ _

/-- The length of the words of `n` groups with their line breaks. -/
theorem refWords_length (src : List Byte) (n : Nat) :
    (refWords src n).length = 4 * n + 2 * (n / 19) := by
  induction n with
  | zero => rfl
  | succ n ih =>
    rw [refWords]
    simp only [List.length_append, ih, refWord_length]
    split <;> simp <;> omega

/-- Two inputs with the same words have the same groups. -/
theorem refWords_inj {a b : List Byte} :
    ∀ n, refWords a n = refWords b n → ∀ t, t < n → refGroup a t = refGroup b t := by
  intro n
  induction n with
  | zero =>
    intro _ t ht
    omega
  | succ n ih =>
    intro h t ht
    rw [refWords, refWords] at h
    have h1 := (List.append_inj' h rfl).1
    have h2 := List.append_inj h1 (by rw [refWords_length, refWords_length])
    by_cases htn : t < n
    · exact ih h2.1 t htn
    · have : t = n := by omega
      rw [this]
      exact refWord_inj (refGroup_lt a n) (refGroup_lt b n) h2.2

/-! ## Nothing is lost in the last word -/

/-- No character of a conversion is a padding character. -/
theorem digitsOf_ne_pad (g : Nat) : ∀ c ∈ digitsOf g, c ≠ '=' := by
  induction g using Nat.strong_induction_on with
  | _ g ih =>
    intro c hc
    by_cases hg : g = 0
    · rw [hg, digitsOf_zero] at hc
      simp at hc
    · rw [digitsOf_pos hg] at hc
      rcases List.mem_cons.1 hc with h | h
      · rw [h]
        exact b64char_ne_eq g
      · refine ih (g >>> 6) ?_ c h
        rw [Nat.shiftRight_eq_div_pow]
        exact Nat.div_lt_self (by omega) (by norm_num)

/-- A value of `group` is determined by the characters of its conversion. -/
theorem digitsOf_inj : ∀ g g' : Nat, digitsOf g = digitsOf g' → g = g' := by
  intro g
  induction g using Nat.strong_induction_on with
  | _ g ih =>
    intro g' h
    by_cases hg : g = 0
    · by_cases hg' : g' = 0
      · rw [hg, hg']
      · rw [hg, digitsOf_zero, digitsOf_pos hg'] at h
        cases h
    · by_cases hg' : g' = 0
      · rw [hg', digitsOf_zero, digitsOf_pos hg] at h
        cases h
      · rw [digitsOf_pos hg, digitsOf_pos hg'] at h
        simp only [List.cons.injEq] at h
        have e0 := b64char_inj h.1
        have e1 := ih (g >>> 6) (by
          rw [Nat.shiftRight_eq_div_pow]
          exact Nat.div_lt_self (by omega) (by norm_num)) (g' >>> 6) h.2
        simp only [Nat.shiftRight_eq_div_pow] at e1
        omega

/-- A value of `group` is determined by what lines 76-86 store for it. -/
theorem tailChars_inj {g g' : Nat} (h : tailChars g = tailChars g') : g = g' := by
  apply digitsOf_inj
  have key : ∀ x : Nat, (tailChars x).takeWhile (fun c => c != '=') = digitsOf x := by
    intro x
    unfold tailChars
    rw [List.takeWhile_append_of_pos (by
      intro c hc
      simpa using digitsOf_ne_pad x c hc)]
    rw [List.takeWhile_replicate]
    simp
  rw [← key g, ← key g', h]

/-- The bytes read after the main loop are determined by their group. -/
theorem tailGroup_inj {a b : List Byte} {i r : Nat}
    (h : tailGroup a i r = tailGroup b i r) :
    ∀ k, k < r → k < 3 → byteAt a (i + k) = byteAt b (i + k) := by
  unfold tailGroup at h
  obtain ⟨h0, h1, h2⟩ := pack3_inj h
  intro k hk hk3
  have hk' : k = 0 ∨ k = 1 ∨ k = 2 := by omega
  rcases hk' with rfl | rfl | rfl
  · simpa [hk] using h0
  · simpa [hk] using h1
  · simpa [hk] using h2

/-! ## Inputs of whole groups, and reads that fail -/

theorem tailGroup_zero (src : List Byte) (i : Nat) : tailGroup src i 0 = 0 := by
  simp [tailGroup, pack3]

theorem tailChars_zero : tailChars 0 = [] := by
  simp [tailChars, digitsOf_zero, padCount]

theorem refWord_mem (g : Nat) : ∀ c ∈ refWord g, c ∈ b64set := by
  intro c hc
  rw [refWord_eq] at hc
  simp only [List.mem_cons, List.mem_singleton, List.not_mem_nil, or_false] at hc
  rcases hc with h | h | h | h <;> rw [h] <;> exact b64char_mem _

/-- Up to 18 words there is no line break: only characters of the alphabet. -/
theorem refWords_mem (src : List Byte) :
    ∀ n, n ≤ 18 → ∀ c ∈ refWords src n, c ∈ b64set := by
  intro n
  induction n with
  | zero =>
    intro _ c hc
    simp [refWords] at hc
  | succ n ih =>
    intro hn c hc
    have h19 : ¬ (n + 1) % 19 = 0 := by omega
    rw [refWords] at hc
    simp only [h19, if_false, List.append_nil, List.mem_append] at hc
    rcases hc with h | h
    · exact ih (by omega) c h
    · exact refWord_mem _ c h

/-- The output for an input of whole groups of 12 bytes is the reference
encoding: the words of the groups with a CRLF after every 19th, and a final
CRLF when the last line is open. -/
theorem encb64_eq_refEncode (src : List Byte) (h : src.length % 12 = 0) :
    written (encb64 src src.length) = some (refEncode src) := by
  have hm : mainTurns src.length = src.length / 3 := by
    unfold mainTurns WORDLEN
    omega
  have h4 : src.length % WORDLEN = 0 := by
    unfold WORDLEN
    omega
  rw [encb64_written_eq src src.length (by rw [hm, h4]; omega), h4, tailGroup_zero,
    tailChars_zero, hm]
  simp [refEncode]

/-- A read loop with something to read stops at once with a fault when `i`
is past the readable bytes. -/
theorem grabLoop_fault {src : List Byte} {bound : Nat} {s : St}
    (h0 : 0 < bound) (h : src.length ≤ s.i) :
    grabLoop src bound s = .error (.srcRead s.i) := by
  obtain ⟨n, rfl⟩ : ∃ n, bound = n + 1 := ⟨bound - 1, by omega⟩
  have e : src[s.i]? = none := List.getElem?_eq_none h
  simp [grabLoop, whileLoop, grab, e, Except.map, bind, Except.bind]

/-- When the main loop consumes all readable bytes and `len mod 4` is not 0,
the first read after the main loop is outside `src`. -/
theorem encb64_fault_after_main (src : List Byte) (len : Nat)
    (h1 : 3 * mainTurns len = src.length) (h2 : 0 < len % WORDLEN) :
    encb64 src len = .error (.srcRead src.length) := by
  obtain ⟨s1, hr, _, hi, _⟩ := mainLoop_content src len (by omega)
  have hg := @grabLoop_fault src (len % WORDLEN) s1 h2 (by omega)
  unfold encb64
  simp only [hr, hg, bind, Except.bind]
  rw [hi, h1]

/-- The encoder is written with the values `leftover len` and
`alignlen len` of lines 55 and 56. -/
theorem encb64_eq_with_alignlen (src : List Byte) (len : Nat) :
    encb64 src len =
      (whileLoop (fun s => s.i < alignlen len) (groupBody src) (alignlen len)
        { linelen := 0, group := 0, i := 0, j := 0, k := 0, dst := [] } >>= fun s =>
      grabLoop src (leftover len) s >>= fun s =>
      convLoop s >>= fun s =>
      padLoop s >>= fun s => pure (terminate s)) := by
  rfl

/-! ## The claims -/

/-- C1, defect of the code: the number of characters `encb64` writes is not
always `encb64len(len)`.  On the 3-byte input "Man" it stores the five
characters `NFmb=` to `dst[0..4]` while `encb64len(3)` is 6; on the 1-byte
input "M" it stores four characters while `encb64len(1)` is 6. -/
theorem encb64_length_differs_from_encb64len :
    written (encb64 [0x4D, 0x61, 0x6E] 3) = some "NFmb=".toList ∧
    storeIndices (encb64 [0x4D, 0x61, 0x6E] 3) = some [0, 1, 2, 3, 4] ∧
    encb64len 3 = 6 ∧
    written (encb64 [0x4D] 1) = some "NB==".toList ∧
    encb64len 1 = 6 := by
  decide

set_option maxRecDepth 100000 in
/-- C2, defect of the code: a buffer of `encb64len(len)` cells is too small
at `len = 168`.  `encb64len(168)` is 228, and for every 168-byte input all
reads are inside `src` and `encb64` stores to the 230 cells `dst[0..229]`;
for 168 zero bytes the characters stored to `dst[228]` and `dst[229]` are
the final CR and LF. -/
theorem encb64_overflows_dst_at_168 :
    encb64len 168 = 228 ∧
    (∀ f : Fin 168 → Byte,
      storeIndices (encb64 (List.ofFn f) 168) = some (List.range 230)) ∧
    (storeIndices (encb64 (List.replicate 168 0) 168)).map
      (fun js => js.filter (fun j => decide (encb64len 168 ≤ j))) = some [228, 229] ∧
    (written (encb64 (List.replicate 168 0) 168)).map (fun cs => cs.drop 228) =
      some ['\r', '\n'] := by
  refine ⟨by decide, ?_, by decide, by decide⟩
  intro f
  have h := encb64_aligned_stores (List.ofFn f) 168 (by decide) (by simp)
  have e : encb64lenSpec 168 = 230 := by decide
  rw [h, e]

/-- C3, defect of the code: `encb64` reads past the first `len` bytes.  With
exactly 4 readable bytes and `len = 4` the read of `src[4]` fails; with 6
readable bytes the bytes `src[4]` and `src[5]` show in the output, so two
buffers with the same first 4 bytes are encoded differently. -/
theorem encb64_reads_past_len :
    encb64 [0, 0, 0, 0] 4 = .error (.srcRead 4) ∧
    written (encb64 [0, 0, 0, 0, 0, 0] 4) = some "AAAAAAAA\r\n".toList ∧
    written (encb64 [0, 0, 0, 0, 1, 0] 4) = some "AAAAAEAA\r\n".toList := by
  decide

/-- C4, defect of the code: the round trip through the RFC 2045 decoder does
not give the data back.  The output for "Man" decodes to the bytes
`0x34 0x59 0x9B`, while the decoder maps the RFC encoding `TWFu` to "Man". -/
theorem encb64_round_trip_fails :
    roundTrip (encb64 [0x4D, 0x61, 0x6E] 3) = some [0x34, 0x59, 0x9B] ∧
    rfcDecode "TWFu".toList = some [0x4D, 0x61, 0x6E] := by
  decide

/-- C5, defect of the code: the outputs for "Man", "Ma" and "M" are `NFmb=`,
`NFG=` and `NB==`, not the standard words `TWFu`, `TWE=` and `TQ==`. -/
theorem encb64_short_inputs :
    written (encb64 [0x4D, 0x61, 0x6E] 3) = some "NFmb=".toList ∧
    written (encb64 [0x4D, 0x61] 2) = some "NFG=".toList ∧
    written (encb64 [0x4D] 1) = some "NB==".toList := by
  decide

set_option maxRecDepth 100000 in
/-- C6, defect of the code: `encb64len` decides the final CRLF from the
length that already includes the inner CRLFs, not from the base length.  At
`count = 57` it returns 80 where the formula gives 78, and at `count = 168`
it returns 228 where the formula gives 230, and 230 is the number of
characters `encb64` writes for 168 bytes. -/
theorem encb64len_differs_from_formula :
    encb64len 57 = 80 ∧ encb64lenSpec 57 = 78 ∧
    encb64len 168 = 228 ∧ encb64lenSpec 168 = 230 ∧
    (written (encb64 (List.replicate 168 0xFF) 168)).map List.length = some 230 := by
  decide

/-- C7, the claim as stated fails: `encb64len(1)` is 6, which is not a
multiple of 4. -/
theorem encb64len_one_not_word_aligned : ¬ (encb64len 1 % 4 = 0) := by
  decide

/-- C7, amended: for every `n`, `encb64len(n)` is even, and it is a multiple
of 4 exactly when the number of CRLF pairs it counts, which is
`(encb64len(n) - base) / 2` for the base length
`base = 4 * (n / 3) + (4 if n mod 3 != 0)`, is even. -/
theorem encb64len_even (n : Nat) :
    encb64len n % 2 = 0 ∧
    (encb64len n % 4 = 0 ↔
      ((encb64len n - (4 * (n / 3) + (if n % 3 ≠ 0 then 4 else 0))) / 2) % 2 = 0) := by
  simp only [encb64len, GROUPLEN, WORDLEN, MAXLINE]
  split_ifs <;> omega

/-- C8, defect of the code: the number of characters written depends on the
byte values.  For the 1-byte input `0x00` nothing is written, for the 1-byte
input `0x4D` four characters are. -/
theorem encb64_length_depends_on_bytes :
    (written (encb64 [0x00] 1)).map List.length = some 0 ∧
    (written (encb64 [0x4D] 1)).map List.length = some 4 := by
  decide

/-- C9, defect of the code: the number of `=` does not follow `len mod 3`.
"Man" (`len mod 3 = 0`) gets one `=`, the byte `0x00` (`len mod 3 = 1`) gets
none, and the bytes `0x00 0x00` (`len mod 3 = 2`) get none. -/
theorem encb64_padding_count :
    (written (encb64 [0x4D, 0x61, 0x6E] 3)).map (List.count '=') = some 1 ∧
    (written (encb64 [0x00] 1)).map (List.count '=') = some 0 ∧
    (written (encb64 [0x00, 0x00] 2)).map (List.count '=') = some 0 := by
  decide

set_option maxRecDepth 100000 in
/-- C10, defect of the code: a line can have 77 characters.  For the input of
171 bytes `0xFF` the lines of the output have 76, 76 and 77 characters (the
empty runs are the ones between a CR and its LF and after the last LF). -/
theorem encb64_line_of_77 :
    (written (encb64 (List.replicate 171 0xFF) 171)).map lineLengths =
      some [76, 0, 76, 0, 77, 0, 0] := by
  decide

/-- C11: in every run of `encb64` that ends, every character written is one
of the 64 characters of the table `b64set`, or `=`, or CR, or LF, and every
CR written is immediately followed by LF; the entry of `b64set` at index `i`
is the RFC 2045 character for the value `i`. -/
theorem encb64_output_characters (src : List Byte) (len : Nat) (cs : List Char)
    (h : written (encb64 src len) = some cs) :
    (∀ c ∈ cs, c ∈ b64set ∨ c = '=' ∨ c = '\r' ∨ c = '\n') ∧
    (∀ n, cs[n]? = some '\r' → cs[n + 1]? = some '\n') ∧
    (∀ i : Fin 64, rfcValue (b64set.getD i.val 'A') = some i.val) := by
  cases hr : encb64 src len with
  | error e => simp [hr, written] at h
  | ok s =>
    simp only [hr, written, Option.some.injEq] at h
    obtain ⟨h1, h2⟩ := encb64_clean hr
    rw [h] at h1 h2
    exact ⟨h1, h2, b64set_is_rfc_table⟩

/-- C11, at the input of 12 zero bytes, whose output is 16 times `A` and a
CRLF. -/
theorem encb64_output_characters_witness :
    written (encb64 (List.replicate 12 0) 12) = some "AAAAAAAAAAAAAAAA\r\n".toList ∧
    (∀ c ∈ "AAAAAAAAAAAAAAAA\r\n".toList, c ∈ b64set ∨ c = '=' ∨ c = '\r' ∨ c = '\n') ∧
    (∀ n, "AAAAAAAAAAAAAAAA\r\n".toList[n]? = some '\r' →
      "AAAAAAAAAAAAAAAA\r\n".toList[n + 1]? = some '\n') ∧
    (∀ i : Fin 64, rfcValue (b64set.getD i.val 'A') = some i.val) :=
  ⟨by decide, encb64_output_characters (List.replicate 12 0) 12 _ (by decide)⟩

/-- C12, defect of the code: the output for a non-empty input need not end
with CRLF.  For the byte "M" the output is `NB==` and ends with `==`, though
`encb64len(1) = 6` counts a final CRLF; for the byte `0x00` the output is
empty.  For 13 bytes "M", where the main loop leaves a line open, the final
CRLF is there. -/
theorem encb64_no_final_crlf :
    (written (encb64 [0x4D] 1)).map (fun cs => cs.drop (cs.length - 2)) = some ['=', '='] ∧
    encb64len 1 = 6 ∧
    written (encb64 [0x00] 1) = some [] ∧
    (written (encb64 (List.replicate 13 0x4D) 13)).map (fun cs => cs.drop (cs.length - 2)) =
      some ['\r', '\n'] := by
  decide

/-- C13: for `len = 0` the encoder stores nothing to `dst`, whatever is
readable behind `src`, and `encb64len(0)` is 0. -/
theorem encb64_empty_input (src : List Byte) :
    written (encb64 src 0) = some [] ∧ storeIndices (encb64 src 0) = some [] ∧
    encb64len 0 = 0 :=
  ⟨rfl, rfl, rfl⟩

set_option maxRecDepth 100000 in
/-- C14, defect of the code: for every input of exactly 57 readable bytes the
run does not end, it reads `src[57]` after the main loop.  With one more
readable byte that byte is encoded too: 57 zero bytes followed by `0x4D`
give 76 times `A`, a CRLF and then `NB==`, 82 characters. -/
theorem encb64_57_bytes_reads_src_57 :
    (∀ f : Fin 57 → Byte, encb64 (List.ofFn f) 57 = .error (.srcRead 57)) ∧
    written (encb64 (List.replicate 57 0 ++ [0x4D]) 57) =
      some (List.replicate 76 'A' ++ "\r\nNB==".toList) := by
  refine ⟨?_, by decide⟩
  intro f
  have h := encb64_fault_after_main (List.ofFn f) 57 (by simp [mainTurns, WORDLEN])
    (by decide)
  simpa using h

/-- C15: for every input of 60 bytes the output is 76 characters of the
alphabet, CRLF, 4 characters of the alphabet, CRLF, with no `=` in it; these
are 84 characters, and `encb64len(60)` is 84. -/
theorem encb64_60_bytes (src : List Byte) (h : src.length = 60) :
    ∃ w1 w2 : List Char,
      written (encb64 src 60) = some (w1 ++ ['\r', '\n'] ++ w2 ++ ['\r', '\n']) ∧
      w1.length = 76 ∧ w2.length = 4 ∧
      (∀ c ∈ w1 ++ w2, c ∈ b64set) ∧
      '=' ∉ w1 ++ ['\r', '\n'] ++ w2 ++ ['\r', '\n'] ∧
      (w1 ++ ['\r', '\n'] ++ w2 ++ ['\r', '\n']).length = 84 ∧
      encb64len 60 = 84 := by
  have hw := encb64_eq_refEncode src (by omega)
  have e20 : src.length / 3 = 18 + 1 + 1 := by omega
  unfold refEncode at hw
  rw [e20, refWords, refWords, h] at hw
  have hmem : ∀ c ∈ (refWords src 18 ++ refWord (refGroup src 18)) ++
      refWord (refGroup src (18 + 1)), c ∈ b64set := by
    intro c hc
    simp only [List.mem_append] at hc
    rcases hc with (hc | hc) | hc
    · exact refWords_mem src 18 (Nat.le_refl _) c hc
    · exact refWord_mem _ c hc
    · exact refWord_mem _ c hc
  have hl1 : (refWords src 18 ++ refWord (refGroup src 18)).length = 76 := by
    simp [refWords_length, refWord_length]
  refine ⟨refWords src 18 ++ refWord (refGroup src 18), refWord (refGroup src (18 + 1)),
    ?_, hl1, refWord_length _, hmem, ?_, ?_, by decide⟩
  · rw [hw]
    simp
  · intro hc
    have hne : '=' ∉ b64set := by decide
    rcases List.mem_append.1 hc with hc | hc
    · rcases List.mem_append.1 hc with hc | hc
      · rcases List.mem_append.1 hc with hc | hc
        · exact hne (hmem _ (List.mem_append_left _ hc))
        · revert hc; decide
      · exact hne (hmem _ (List.mem_append_right _ hc))
    · revert hc; decide
  · rw [List.length_append, List.length_append, List.length_append, hl1, refWord_length]
    rfl

/-- C15, at the input of 60 zero bytes. -/
theorem encb64_60_bytes_witness :
    (List.replicate 60 (0 : Byte)).length = 60 ∧
    ∃ w1 w2 : List Char,
      written (encb64 (List.replicate 60 0) 60) =
        some (w1 ++ ['\r', '\n'] ++ w2 ++ ['\r', '\n']) ∧
      w1.length = 76 ∧ w2.length = 4 ∧
      (∀ c ∈ w1 ++ w2, c ∈ b64set) ∧
      '=' ∉ w1 ++ ['\r', '\n'] ++ w2 ++ ['\r', '\n'] ∧
      (w1 ++ ['\r', '\n'] ++ w2 ++ ['\r', '\n']).length = 84 ∧
      encb64len 60 = 84 :=
  ⟨by decide, encb64_60_bytes (List.replicate 60 0) (by decide)⟩

/-- C16: for every input whose length `n` is a multiple of 12 the output is
the reference encoding `refEncode`: for the `n / 3` groups `(b0, b1, b2)` in
order the four characters `b64set[(g >> 6t) & 63]`, `t = 0, 1, 2, 3`, of
`g = b0 + 256*b1 + 65536*b2`, a CRLF after every 19th word, no `=`, and one
final CRLF exactly when `n / 3` is not a multiple of 19. -/
theorem encb64_whole_groups (src : List Byte) (h : src.length % 12 = 0) :
    written (encb64 src src.length) = some (refEncode src) :=
  encb64_eq_refEncode src h

/-- C16, at the 12 bytes `0xFF 0xFF 0xFF 1 2 ... 9`. -/
theorem encb64_whole_groups_witness :
    ([255, 255, 255, 1, 2, 3, 4, 5, 6, 7, 8, 9] : List Byte).length % 12 = 0 ∧
    written (encb64 [255, 255, 255, 1, 2, 3, 4, 5, 6, 7, 8, 9]
      ([255, 255, 255, 1, 2, 3, 4, 5, 6, 7, 8, 9] : List Byte).length) =
      some (refEncode [255, 255, 255, 1, 2, 3, 4, 5, 6, 7, 8, 9]) :=
  ⟨by decide, encb64_whole_groups _ (by decide)⟩

/-- C17, defect of the code: `encb64` and the variant with
`leftover = len % GROUPLEN` differ.  For "Man" the code sends the three
bytes through the leftover path and writes `NFmb=`, the variant takes them
as a group and writes `NFmb` and a CRLF. -/
theorem encb64_differs_from_group_variant :
    written (encb64 [0x4D, 0x61, 0x6E] 3) = some "NFmb=".toList ∧
    written (encb64ByGroups [0x4D, 0x61, 0x6E] 3) = some "NFmb\r\n".toList := by
  decide

/-- C18, defect of the code: the last word can have five characters.  For
the bytes `0xFF 0xFF 0xFF` the output is `////=`, without any CR or LF, so
its length without line breaks is 5, not a multiple of 4. -/
theorem encb64_last_word_of_five :
    written (encb64 [0xFF, 0xFF, 0xFF] 3) = some "////=".toList ∧
    (written (encb64 [0xFF, 0xFF, 0xFF] 3)).map (fun cs => (stripBreaks cs).length % 4) =
      some 1 := by
  decide

/-- C19, defect of the code: `alignlen` is aligned to `WORDLEN`, not to
`GROUPLEN`, and `leftover` can be 3.  For `len = 4`: `alignlen = 4`, not a
multiple of 3; for `len = 3`: `leftover = 3` and `alignlen = 0`. -/
theorem alignlen_not_group_aligned :
    alignlen 4 = 4 ∧ alignlen 4 % GROUPLEN = 1 ∧ leftover 3 = 3 ∧ alignlen 3 = 0 := by
  decide

/-- C20: for a length `n` with `n mod 12` in {0, 1, 2, 3} the encoder is
injective on the inputs of `n` bytes: every such input has an output, and
two of them with the same output are equal. -/
theorem encb64_injective (n : Nat) (a b : List Byte) (hn : n % 12 < 4)
    (ha : a.length = n) (hb : b.length = n)
    (h : written (encb64 a n) = written (encb64 b n)) :
    (written (encb64 a n)).isSome = true ∧ a = b := by
  have hm : 3 * mainTurns n + n % WORDLEN = n := by
    unfold mainTurns WORDLEN
    omega
  have hr3 : n % WORDLEN < 4 := by
    unfold WORDLEN
    omega
  have ea := encb64_written_eq a n (by omega)
  have eb := encb64_written_eq b n (by omega)
  refine ⟨by rw [ea]; rfl, ?_⟩
  rw [ea, eb] at h
  have h0 := Option.some.inj h
  have h1 := (List.append_inj' h0 rfl).1
  have h2 := List.append_inj h1 (by rw [refWords_length, refWords_length])
  have hgroups := refWords_inj (mainTurns n) h2.1
  have htail := tailGroup_inj (tailChars_inj h2.2)
  have hbyte : ∀ i, i < n → byteAt a i = byteAt b i := by
    intro i hi
    by_cases hlt : i < 3 * mainTurns n
    · have hg := hgroups (i / 3) (by omega)
      unfold refGroup at hg
      obtain ⟨g0, g1, g2⟩ := pack3_inj hg
      have hc : i = 3 * (i / 3) ∨ i = 3 * (i / 3) + 1 ∨ i = 3 * (i / 3) + 2 := by omega
      rcases hc with hc | hc | hc
      · rw [hc]; exact g0
      · rw [hc]; exact g1
      · rw [hc]; exact g2
    · have := htail (i - 3 * mainTurns n) (by omega) (by omega)
      have e : 3 * mainTurns n + (i - 3 * mainTurns n) = i := by omega
      rw [e] at this
      exact this
  apply List.ext_getElem (by rw [ha, hb])
  intro i h1 h2
  have := hbyte i (by omega)
  unfold byteAt at this
  rw [List.getD_eq_getElem _ _ h1, List.getD_eq_getElem _ _ h2] at this
  exact this

/-- C20, at the 3-byte input "Man" taken twice. -/
theorem encb64_injective_witness :
    3 % 12 < 4 ∧ ([0x4D, 0x61, 0x6E] : List Byte).length = 3 ∧
    written (encb64 [0x4D, 0x61, 0x6E] 3) = written (encb64 [0x4D, 0x61, 0x6E] 3) ∧
    (written (encb64 [0x4D, 0x61, 0x6E] 3)).isSome = true ∧
    ([0x4D, 0x61, 0x6E] : List Byte) = [0x4D, 0x61, 0x6E] :=
  ⟨by decide, rfl, rfl,
    encb64_injective 3 [0x4D, 0x61, 0x6E] [0x4D, 0x61, 0x6E] (by decide) rfl rfl rfl⟩

end Base64
